import Mathlib

/-!
Verification of the date-range table filter and daily aggregator of
`src/app.py` (the only logic core of the repository, lines 104-118).

The embedding models the pandas pipeline

    df[col] = pd.to_datetime(df[col])
    mask = (df[col].dt.date >= start_date) & (df[col].dt.date <= end_date)
    df_filtered = df.loc[mask]
    daily_counts = df_filtered.groupby(df_filtered[col].dt.date).size()

over a dynamically typed table.  Calendar dates are day numbers (days since
a fixed epoch), so date comparison is integer comparison; a timestamp is a
calendar day plus a time-of-day that `.dt.date` discards.  A cell value is
classified by how `pd.to_datetime` treats it: an already-normalized datetime,
a string that parses to a datetime, a missing value (coerced to `NaT`, which
every `>=`/`<=` comparison rejects), or an unparseable value on which
`pd.to_datetime` raises.  `groupby` keys are the distinct dates present,
in ascending order, with missing keys dropped.
-/

namespace App

/-- A calendar date, as a day number (days since a fixed epoch).  The order
on day numbers is calendar order; `.dt.date` in the source produces these. -/
abbrev CalDate := Int

/-- A parsed timestamp as produced by `pd.to_datetime`: a calendar day plus
a time-of-day in seconds.  `.dt.date` keeps `day` and discards `tod`. -/
structure Timestamp where
  day : CalDate
  tod : Nat
deriving DecidableEq, Repr

/-- A dynamically typed cell value, classified by how `pd.to_datetime`
treats it: `vts` an already-normalized datetime, `vparseable` a string that
parses to the given timestamp, `vnull` a missing value (becomes `NaT`),
`vbad` a value on which `pd.to_datetime` raises. -/
inductive Value where
  | vts (t : Timestamp)
  | vparseable (s : String) (t : Timestamp)
  | vnull
  | vbad (s : String)
deriving DecidableEq, Repr

/-- The result of `pd.to_datetime` on one cell that did not raise:
either a timestamp or the missing-value sentinel `NaT`. -/
inductive Parsed where
  | NaT
  | ts (t : Timestamp)
deriving DecidableEq, Repr

/-- Embedding of `pd.to_datetime` on a single cell (src/app.py line 106):
parseable values yield their timestamp, missing values yield `NaT`, and an
unparseable value raises (modelled as `Except.error`). -/
def to_datetime : Value → Except String Parsed
  | .vts t => .ok (.ts t)
  | .vparseable _ t => .ok (.ts t)
  | .vnull => .ok .NaT
  | .vbad s => .error s

/-- The value written back into the column by
`df[col] = pd.to_datetime(df[col])`: a normalized datetime, or the
missing-value sentinel for `NaT`. -/
def writeBack : Parsed → Value
  | .NaT => .vnull
  | .ts t => .vts t

/-- The sidebar date range: `start_date` and `end_date` are the two
globals read in src/app.py lines 20-21; both bounds are calendar dates. -/
structure DateRange where
  start_date : CalDate
  end_date : CalDate
deriving DecidableEq, Repr

/-- The filter predicate on one calendar date
(`start_date <= d && d <= end_date`, both bounds inclusive), as in the
mask of src/app.py line 107. -/
def inRange (R : DateRange) (d : CalDate) : Bool :=
  decide (R.start_date ≤ d) && decide (d ≤ R.end_date)

/-- The mask entry for one parsed cell (src/app.py line 107):
a timestamp passes iff its calendar date lies in the range; `NaT` fails
both comparisons, hence the mask is false. -/
def maskOf (R : DateRange) : Parsed → Bool
  | .NaT => false
  | .ts t => inRange R t.day

/-- A record: one row of the table, its cells aligned with the table's
column list. -/
abbrev Record := List Value

/-- A table: ordered column names and an ordered sequence of records,
as fetched by `pd.read_sql` (src/app.py line 102). -/
structure Table where
  cols : List String
  rows : List Record
deriving DecidableEq, Repr

/-- The cell of row `r` in column position `i`.  A position outside the
row reads as a missing value (well-formed tables never hit the default). -/
def cellAt (i : Nat) (r : Record) : Value := r.getD i Value.vnull

/-- Embedding of `pd.to_datetime` applied to a whole column
(src/app.py line 106): every cell is parsed, and the first unparseable
cell aborts the conversion with its error. -/
def parseColumn : List Value → Except String (List Parsed)
  | [] => .ok []
  | v :: vs =>
    match to_datetime v, parseColumn vs with
    | .error e, _ => .error e
    | .ok _, .error e => .error e
    | .ok p, .ok ps => .ok (p :: ps)

/-- The row-level core of src/app.py lines 106-108 at column position `i`:
parse the timestamp column, write the parsed values back into the rows,
build the date-range mask from the parsed values, and keep the rows whose
mask entry is true. -/
def filterCore (i : Nat) (R : DateRange) (rows : List Record) :
    Except String (List Record) :=
  match parseColumn (rows.map (cellAt i)) with
  | .error e => .error e
  | .ok parsed =>
    let rows2 := List.zipWith (fun r p => r.set i (writeBack p)) rows parsed
    .ok (((rows2.zip parsed).filter (fun rp => maskOf R rp.2)).map Prod.fst)

/-- Embedding of the branch at src/app.py lines 104-108 and 121-123:
if the designated timestamp column is present, normalize it and filter by
the date range; otherwise return the table unchanged. -/
def filterByDateRange (T : Table) (col : String) (R : DateRange) :
    Except String Table :=
  if col ∈ T.cols then
    match filterCore (T.cols.indexOf col) R T.rows with
    | .error e => .error e
    | .ok rows => .ok ⟨T.cols, rows⟩
  else .ok T

/-- The calendar date of a cell holding a normalized datetime
(`.dt.date` on the already-converted column); any other cell has no date
and is dropped by `groupby` (missing group keys are not counted). -/
def dateOfCell : Value → Option CalDate
  | .vts t => some t.day
  | _ => none

/-- The list of calendar dates of the records of `T`, in row order:
`df_filtered[col].dt.date` in src/app.py line 114. -/
def datesOf (T : Table) (col : String) : List CalDate :=
  (T.rows.map (cellAt (T.cols.indexOf col))).filterMap dateOfCell

/-- Embedding of src/app.py lines 113-118: on a nonempty table, group the
records by calendar date and count each group
(`groupby(...dt.date).size()`), the groups listed in ascending date order;
on an empty table, produce nothing. -/
def aggregateByDay (T : Table) (col : String) : List (CalDate × Nat) :=
  if T.rows.isEmpty then []
  else
    let ds := datesOf T col
    (ds.dedup.insertionSort (fun a b => a ≤ b)).map (fun d => (d, ds.count d))

/-- The normalization `pd.to_datetime` performs on one cell when it does
not raise: the value written back into the table. -/
def normCell (v : Value) : Value :=
  match to_datetime v with
  | .ok p => writeBack p
  | .error _ => v

/-- One row after the write-back `df[col] = pd.to_datetime(df[col])`:
the cell at position `i` is normalized, all other cells are untouched. -/
def normRow (i : Nat) (r : Record) : Record := r.set i (normCell (cellAt i r))

/-- A table after the timestamp-column write-back; when the column is
absent no write-back happens and the table is unchanged. -/
def normTable (T : Table) (col : String) : Table :=
  if col ∈ T.cols then ⟨T.cols, T.rows.map (normRow (T.cols.indexOf col))⟩
  else T

/-- Whether a source record is retained by the mask: its timestamp cell
parses to a timestamp whose calendar date lies in the range. -/
def keepRow (i : Nat) (R : DateRange) (r : Record) : Bool :=
  match to_datetime (cellAt i r) with
  | .ok (.ts t) => inRange R t.day
  | _ => false

/-- Whether an `Except` computation succeeded. -/
def isOkB {ε α : Type} : Except ε α → Bool
  | .ok _ => true
  | .error _ => false

/-! Basic cell lemmas. -/

theorem cellAt_of_length_le {i : Nat} {r : Record} (h : r.length ≤ i) :
    cellAt i r = Value.vnull := by
  unfold cellAt
  simp [List.getD_eq_getElem?_getD, List.getElem?_eq_none h]

theorem cellAt_set_self (i : Nat) (r : Record) (v : Value) :
    cellAt i (r.set i v) = if i < r.length then v else Value.vnull := by
  by_cases hlt : i < r.length
  · unfold cellAt
    rw [List.getD_eq_getElem?_getD, List.getElem?_set_self hlt]
    simp [hlt]
  · rw [List.set_eq_of_length_le (Nat.le_of_not_lt hlt)]
    rw [cellAt_of_length_le (Nat.le_of_not_lt hlt)]
    simp [hlt]

theorem cellAt_set_ne {i j : Nat} (h : i ≠ j) (r : Record) (v : Value) :
    cellAt j (r.set i v) = cellAt j r := by
  unfold cellAt
  simp [List.getD_eq_getElem?_getD, List.getElem?_set_ne h]

theorem set_cellAt_self {i : Nat} {r : Record} (h : i < r.length) :
    r.set i (cellAt i r) = r := by
  induction r generalizing i with
  | nil => simp at h
  | cons a l ih =>
    cases i with
    | zero => simp [cellAt]
    | succ n =>
      have hn : n < l.length := by simpa using h
      simp only [cellAt, List.getD_cons_succ, List.set_cons_succ]
      have := ih hn
      unfold cellAt at this
      rw [this]

/-! Structural characterization of the filter core. -/

theorem zipFilterMap_eq (i : Nat) (R : DateRange) :
    ∀ (rows : List Record) (ps : List Parsed),
      parseColumn (rows.map (cellAt i)) = .ok ps →
      (((List.zipWith (fun r p => r.set i (writeBack p)) rows ps).zip ps).filter
          (fun rp => maskOf R rp.2)).map Prod.fst
        = (rows.filter (keepRow i R)).map (normRow i)
  | [], ps, h => by
      simp only [List.map_nil, parseColumn, Except.ok.injEq] at h
      subst h
      simp
  | r :: rs, ps, h => by
      simp only [List.map_cons, parseColumn] at h
      cases h1 : to_datetime (cellAt i r) with
      | error e => rw [h1] at h; exact absurd h (by simp)
      | ok p =>
        rw [h1] at h
        cases h2 : parseColumn (rs.map (cellAt i)) with
        | error e => rw [h2] at h; exact absurd h (by simp)
        | ok ps2 =>
          rw [h2] at h
          simp only [Except.ok.injEq] at h
          subst h
          have hk : keepRow i R r = maskOf R p := by
            unfold keepRow
            rw [h1]
            cases p <;> rfl
          have hn : r.set i (writeBack p) = normRow i r := by
            unfold normRow normCell
            rw [h1]
          have ihr := zipFilterMap_eq i R rs ps2 h2
          cases hm : maskOf R p with
          | false =>
            simp only [List.zipWith_cons_cons, List.zip_cons_cons, List.filter_cons, hm,
              hk, Bool.false_eq_true, if_false]
            exact ihr
          | true =>
            simp only [List.zipWith_cons_cons, List.zip_cons_cons, List.filter_cons, hm,
              hk, if_true, List.map_cons, hn]
            rw [ihr]

theorem filterCore_ok_eq {i : Nat} {R : DateRange} {rows out : List Record}
    (h : filterCore i R rows = .ok out) :
    out = (rows.filter (keepRow i R)).map (normRow i) := by
  unfold filterCore at h
  cases h2 : parseColumn (rows.map (cellAt i)) with
  | error e => rw [h2] at h; exact absurd h (by simp)
  | ok ps =>
    rw [h2] at h
    simp only [Except.ok.injEq] at h
    rw [← h]
    exact zipFilterMap_eq i R rows ps h2

theorem filterByDateRange_ok_eq {T : Table} {col : String} {R : DateRange} {T2 : Table}
    (hcol : col ∈ T.cols) (h : filterByDateRange T col R = .ok T2) :
    T2.cols = T.cols ∧
      T2.rows = (T.rows.filter (keepRow (T.cols.indexOf col) R)).map
        (normRow (T.cols.indexOf col)) := by
  unfold filterByDateRange at h
  rw [if_pos hcol] at h
  cases h2 : filterCore (T.cols.indexOf col) R T.rows with
  | error e => rw [h2] at h; exact absurd h (by simp)
  | ok rows =>
    rw [h2] at h
    simp only [Except.ok.injEq] at h
    subst h
    exact ⟨rfl, filterCore_ok_eq h2⟩

/-! Every record the mask retains carries a normalized in-range timestamp. -/

theorem keepRow_spec {i : Nat} {R : DateRange} {r : Record}
    (h : keepRow i R r = true) :
    ∃ t : Timestamp, to_datetime (cellAt i r) = .ok (.ts t) ∧
      inRange R t.day = true ∧ i < r.length ∧
      cellAt i (normRow i r) = Value.vts t := by
  unfold keepRow at h
  cases h1 : to_datetime (cellAt i r) with
  | error e => rw [h1] at h; exact absurd h (by simp)
  | ok p =>
    rw [h1] at h
    cases p with
    | NaT => exact absurd h (by simp)
    | ts t =>
      have hlen : i < r.length := by
        by_contra hge
        rw [cellAt_of_length_le (Nat.le_of_not_lt hge)] at h1
        exact absurd h1 (by simp [to_datetime])
      refine ⟨t, rfl, h, hlen, ?_⟩
      unfold normRow normCell
      rw [h1]
      rw [cellAt_set_self]
      simp [hlen, writeBack]

theorem filterCore_fixed {i : Nat} {R : DateRange} :
    ∀ {rows : List Record},
      (∀ r ∈ rows, ∃ t : Timestamp, cellAt i r = Value.vts t ∧ inRange R t.day = true) →
      filterCore i R rows = .ok rows
  | [], _ => rfl
  | r :: rs, h => by
    obtain ⟨t, hc, hr⟩ := h r (List.mem_cons_self r rs)
    have hlen : i < r.length := by
      by_contra hge
      rw [cellAt_of_length_le (Nat.le_of_not_lt hge)] at hc
      exact absurd hc (by simp)
    have ihr := filterCore_fixed (fun r2 hm => h r2 (List.mem_cons_of_mem r hm))
    unfold filterCore at ihr ⊢
    cases h2 : parseColumn (rs.map (cellAt i)) with
    | error e => rw [h2] at ihr; exact absurd ihr (by simp)
    | ok ps =>
      rw [h2] at ihr
      simp only [Except.ok.injEq] at ihr
      have hmask : maskOf R (Parsed.ts t) = true := hr
      have hset : r.set i (writeBack (Parsed.ts t)) = r := by
        rw [show writeBack (Parsed.ts t) = Value.vts t from rfl, ← hc]
        exact set_cellAt_self hlen
      simp only [List.map_cons, parseColumn, hc, to_datetime, h2]
      simp only [List.zipWith_cons_cons, hset, List.zip_cons_cons, List.filter_cons, hmask,
        if_true, List.map_cons, ihr]

/-! Success of the whole filter is success of every cell parse. -/

theorem parseColumn_isOkB :
    ∀ vs : List Value,
      isOkB (parseColumn vs) = true ↔ ∀ v ∈ vs, isOkB (to_datetime v) = true
  | [] => by simp [parseColumn, isOkB]
  | v :: vs => by
    have ih := parseColumn_isOkB vs
    cases h1 : to_datetime v with
    | error e =>
      simp [parseColumn, h1, isOkB, List.forall_mem_cons]
    | ok p =>
      cases h2 : parseColumn vs with
      | error e =>
        rw [h2] at ih
        simp only [isOkB] at ih
        simp [parseColumn, h1, h2, isOkB, List.forall_mem_cons, ← ih]
      | ok ps =>
        rw [h2] at ih
        simp only [isOkB] at ih
        simp [parseColumn, h1, h2, isOkB, List.forall_mem_cons, ← ih]

/-! Counting lemmas for the daily aggregation. -/

theorem sum_map_add_nat (f g : CalDate → Nat) :
    ∀ e : List CalDate, (e.map fun d => f d + g d).sum = (e.map f).sum + (e.map g).sum
  | [] => rfl
  | b :: e => by
    simp only [List.map_cons, List.sum_cons, sum_map_add_nat f g e]
    omega

theorem sum_ite_zero (a : CalDate) :
    ∀ e : List CalDate, a ∉ e → (e.map fun d => if a = d then (1 : Nat) else 0).sum = 0
  | [], _ => rfl
  | b :: e, ha => by
    have h1 : a ≠ b := fun h => ha (h ▸ List.mem_cons_self b e)
    simp [h1, sum_ite_zero a e (fun h => ha (List.mem_cons_of_mem b h))]

theorem sum_ite_one (a : CalDate) :
    ∀ e : List CalDate, e.Nodup → a ∈ e →
      (e.map fun d => if a = d then (1 : Nat) else 0).sum = 1
  | [], _, ha => absurd ha (List.not_mem_nil a)
  | b :: e, he, ha => by
    rcases List.mem_cons.mp ha with hab | ha2
    · subst hab
      have hnb : a ∉ e := (List.nodup_cons.mp he).1
      simp [sum_ite_zero a e hnb]
    · have hne : a ≠ b := by
        rintro rfl
        exact (List.nodup_cons.mp he).1 ha2
      simp [hne, sum_ite_one a e (List.nodup_cons.mp he).2 ha2]

theorem sum_count_eq_length :
    ∀ (l e : List CalDate), e.Nodup → (∀ x ∈ l, x ∈ e) →
      (e.map fun d => l.count d).sum = l.length
  | [], e, _, _ => by
    induction e with
    | nil => rfl
    | cons b e ih => simp [ih]
  | a :: l, e, he, hsub => by
    have step : (e.map fun d => (a :: l).count d).sum
        = (e.map fun d => l.count d + if a = d then 1 else 0).sum := by
      simp only [List.count_cons, beq_iff_eq]
    rw [step, sum_map_add_nat _ _ e,
      sum_count_eq_length l e he (fun x hx => hsub x (List.mem_cons_of_mem a hx)),
      sum_ite_one a e he (hsub a (List.mem_cons_self a l))]
    simp

theorem length_filterMap_all_some {α β : Type} (f : α → Option β) :
    ∀ l : List α, (∀ a ∈ l, (f a).isSome = true) → (l.filterMap f).length = l.length
  | [], _ => rfl
  | a :: l, h => by
    obtain ⟨b, hb⟩ := Option.isSome_iff_exists.mp (h a (List.mem_cons_self a l))
    simp [List.filterMap_cons, hb,
      length_filterMap_all_some f l (fun x hx => h x (List.mem_cons_of_mem a hx))]

theorem aggregateByDay_eq (T : Table) (col : String) (hne : T.rows ≠ []) :
    aggregateByDay T col =
      ((datesOf T col).dedup.insertionSort (fun a b => a ≤ b)).map
        (fun d => (d, (datesOf T col).count d)) := by
  unfold aggregateByDay
  rw [if_neg (fun hh => hne (List.isEmpty_iff.mp hh))]

/-! Claim theorems. -/

/-- C1: when the designated timestamp column is present and the filter
produces a table, a record is retained iff its timestamp value, parsed
and normalized to a calendar date (`keepRow` checks
`start_date <= day && day <= end_date`, both bounds inclusive, and the
time-of-day plays no part), the result listing (in order) the retained
records with the parsed timestamp written back. -/
theorem filter_retains_iff_in_range {T : Table} {col : String} {R : DateRange}
    {T2 : Table} (hcol : col ∈ T.cols) (h : filterByDateRange T col R = .ok T2) :
    T2.rows = (T.rows.filter (keepRow (T.cols.indexOf col) R)).map
      (normRow (T.cols.indexOf col)) :=
  (filterByDateRange_ok_eq hcol h).2

/-- A table whose single record holds a parseable timestamp string. -/
def srcStringTable : Table :=
  ⟨["created_at"], [[Value.vparseable "x" ⟨3, 1⟩]]⟩

/-- A date range that contains day 3. -/
def anyRange : DateRange := ⟨0, 10⟩

/-- What the filter returns on `srcStringTable`: the record is kept but
its timestamp cell now holds the parsed datetime. -/
def srcStringOut : Table :=
  ⟨["created_at"], [[Value.vts ⟨3, 1⟩]]⟩

/-- C2 counterexample: on a table whose timestamp cell is a parseable
string, the retained record has the cell replaced by the parsed datetime,
so the output is not a subsequence of the source table's records (the
retained record does not occur in the source at all). -/
theorem filtered_record_not_among_source :
    filterByDateRange srcStringTable "created_at" anyRange = .ok srcStringOut ∧
      ¬ srcStringOut.rows.Sublist srcStringTable.rows := by
  refine ⟨rfl, ?_⟩
  decide

/-- C2 amended: the records of the filter's output are a subsequence
(no record added, none duplicated, original relative order preserved) of
the records of the table after the timestamp-column write-back
`df[col] = pd.to_datetime(df[col])`; for a table without the column the
filter output is the table itself. -/
theorem filtered_rows_sublist_norm {T : Table} {col : String} {R : DateRange}
    {T2 : Table} (h : filterByDateRange T col R = .ok T2) :
    T2.rows.Sublist (normTable T col).rows := by
  by_cases hcol : col ∈ T.cols
  · rw [(filterByDateRange_ok_eq hcol h).2]
    unfold normTable
    rw [if_pos hcol]
    exact (List.filter_sublist T.rows).map (normRow (T.cols.indexOf col))
  · unfold filterByDateRange at h
    rw [if_neg hcol] at h
    simp only [Except.ok.injEq] at h
    subst h
    unfold normTable
    rw [if_neg hcol]

/-- C3: when the designated timestamp column is absent, the filter is the
identity on the table, whatever the range. -/
theorem absent_column_identity {T : Table} {col : String} (R : DateRange)
    (hcol : col ∉ T.cols) : filterByDateRange T col R = .ok T := by
  unfold filterByDateRange
  rw [if_neg hcol]

/-- C4: filtering an already-filtered table with the same column and
range returns it unchanged (idempotence). -/
theorem filter_idempotent {T : Table} {col : String} {R : DateRange} {T2 : Table}
    (hcol : col ∈ T.cols) (h : filterByDateRange T col R = .ok T2) :
    filterByDateRange T2 col R = .ok T2 := by
  obtain ⟨hcols, hrows⟩ := filterByDateRange_ok_eq hcol h
  have hcol2 : col ∈ T2.cols := by rw [hcols]; exact hcol
  unfold filterByDateRange
  rw [if_pos hcol2]
  have hfix : filterCore (T2.cols.indexOf col) R T2.rows = .ok T2.rows := by
    apply filterCore_fixed
    intro r2 hr2
    rw [hrows] at hr2
    obtain ⟨r, hrf, hr2eq⟩ := List.mem_map.mp hr2
    obtain ⟨hrm, hk⟩ := List.mem_filter.mp hrf
    obtain ⟨t, htd, hinr, hlen, hcell⟩ := keepRow_spec hk
    refine ⟨t, ?_, hinr⟩
    rw [hcols, ← hr2eq]
    exact hcell
  rw [hfix]

/-- C5: an inverted range (`start_date > end_date`) filters out every
record (the predicate is evaluated literally and no date satisfies it),
and aggregating the resulting empty table yields the empty sequence. -/
theorem inverted_range_empty {T : Table} {col : String} {R : DateRange} {T2 : Table}
    (hcol : col ∈ T.cols) (hinv : R.end_date < R.start_date)
    (h : filterByDateRange T col R = .ok T2) :
    T2.rows = [] ∧ aggregateByDay T2 col = [] := by
  obtain ⟨hcols, hrows⟩ := filterByDateRange_ok_eq hcol h
  have hnone : T.rows.filter (keepRow (T.cols.indexOf col) R) = [] := by
    rw [List.filter_eq_nil_iff]
    intro r _ hk
    obtain ⟨t, htd, hinr, hlen, hcell⟩ := keepRow_spec hk
    unfold inRange at hinr
    simp only [Bool.and_eq_true, decide_eq_true_eq] at hinr
    exact absurd (le_trans hinr.1 hinr.2) (not_le.mpr hinv)
  have h2 : T2.rows = [] := by rw [hrows, hnone]; rfl
  refine ⟨h2, ?_⟩
  unfold aggregateByDay
  rw [if_pos (by simp [h2])]

/-- C6: the daily aggregation is strictly ascending by date with no
duplicate dates, and its dates are exactly those carried by some record
of the input (no zero-count gap days are inserted). -/
theorem daily_counts_sorted_exact (T : Table) (col : String) :
    List.Pairwise (fun a b : CalDate × Nat => a.1 < b.1) (aggregateByDay T col) ∧
      ∀ d : CalDate, d ∈ (aggregateByDay T col).map Prod.fst ↔ d ∈ datesOf T col := by
  by_cases hne : T.rows = []
  · have hagg : aggregateByDay T col = [] := by
      unfold aggregateByDay
      rw [if_pos (by simp [hne])]
    have hdates : datesOf T col = [] := by
      unfold datesOf
      rw [hne]
      rfl
    simp [hagg, hdates]
  · rw [aggregateByDay_eq T col hne]
    have hperm : List.Perm ((datesOf T col).dedup.insertionSort (fun a b => a ≤ b))
        (datesOf T col).dedup := List.perm_insertionSort _ _
    have hnodup : ((datesOf T col).dedup.insertionSort (fun a b => a ≤ b)).Nodup :=
      hperm.nodup_iff.mpr (List.nodup_dedup _)
    have hsorted : List.Sorted (fun a b : CalDate => a ≤ b)
        ((datesOf T col).dedup.insertionSort (fun a b => a ≤ b)) :=
      List.sorted_insertionSort _ _
    constructor
    · rw [List.pairwise_map]
      exact hsorted.lt_of_le hnodup
    · intro d
      rw [List.map_map]
      rw [show (Prod.fst ∘ fun d => (d, (datesOf T col).count d)) = id from rfl]
      rw [List.map_id]
      rw [hperm.mem_iff, List.mem_dedup]

/-- C7: the counts of the daily aggregation of a filtered table sum to
the number of records of that filtered table. -/
theorem daily_counts_total {T : Table} {col : String} {R : DateRange} {T2 : Table}
    (hcol : col ∈ T.cols) (h : filterByDateRange T col R = .ok T2) :
    ((aggregateByDay T2 col).map Prod.snd).sum = T2.rows.length := by
  obtain ⟨hcols, hrows⟩ := filterByDateRange_ok_eq hcol h
  by_cases hne : T2.rows = []
  · have hagg : aggregateByDay T2 col = [] := by
      unfold aggregateByDay
      rw [if_pos (by simp [hne])]
    simp [hagg, hne]
  · have hcell : ∀ r2 ∈ T2.rows, ∃ t : Timestamp,
        cellAt (T2.cols.indexOf col) r2 = Value.vts t := by
      intro r2 hr2
      rw [hrows] at hr2
      obtain ⟨r, hrf, hr2eq⟩ := List.mem_map.mp hr2
      obtain ⟨hrm, hk⟩ := List.mem_filter.mp hrf
      obtain ⟨t, htd, hinr, hlen, hc⟩ := keepRow_spec hk
      refine ⟨t, ?_⟩
      rw [hcols, ← hr2eq]
      exact hc
    have hlen : (datesOf T2 col).length = T2.rows.length := by
      have hall : ∀ v ∈ T2.rows.map (cellAt (T2.cols.indexOf col)),
          (dateOfCell v).isSome = true := by
        rw [List.forall_mem_map]
        intro r2 hr2
        obtain ⟨t, ht⟩ := hcell r2 hr2
        rw [ht]
        rfl
      unfold datesOf
      rw [length_filterMap_all_some _ _ hall, List.length_map]
    rw [aggregateByDay_eq T2 col hne, List.map_map]
    rw [show (Prod.snd ∘ fun d => (d, (datesOf T2 col).count d))
      = fun d => (datesOf T2 col).count d from rfl]
    have hperm : List.Perm ((datesOf T2 col).dedup.insertionSort (fun a b => a ≤ b))
        (datesOf T2 col).dedup := List.perm_insertionSort _ _
    rw [sum_count_eq_length (datesOf T2 col) _
      (hperm.nodup_iff.mpr (List.nodup_dedup _))
      (fun x hx => hperm.mem_iff.mpr (List.mem_dedup.mpr hx))]
    exact hlen

/-- C8: aggregating the empty table yields the empty sequence, not an
error. -/
theorem aggregate_empty {T : Table} (col : String) (h : T.rows = []) :
    aggregateByDay T col = [] := by
  unfold aggregateByDay
  rw [if_pos (by simp [h])]

/-- A table whose single record holds an unparseable timestamp value. -/
def badTimestampTable : Table :=
  ⟨["created_at"], [[Value.vbad "not a date"]]⟩

/-- C9 counterexample: one record whose timestamp value cannot be parsed
makes the whole filter computation raise (`pd.to_datetime` raises before
any masking happens), so no filtered table is produced at all - the
record is not merely excluded, and the computation is not crash-free. -/
theorem unparseable_aborts :
    isOkB (filterByDateRange badTimestampTable "created_at" anyRange) = false ∧
      filterByDateRange badTimestampTable "created_at" anyRange
        = .error "not a date" :=
  ⟨rfl, rfl⟩

/-- C9 amended: the filter produces a well-defined result exactly when
the timestamp column is absent (identity) or every value in that column
parses (this covers the empty table, the inverted range and all-future
dates); a single unparseable timestamp value aborts the whole computation
with an error instead of being excluded. -/
theorem filter_ok_iff_parseable (T : Table) (col : String) (R : DateRange) :
    isOkB (filterByDateRange T col R) = true ↔
      (col ∉ T.cols ∨
        ∀ r ∈ T.rows, isOkB (to_datetime (cellAt (T.cols.indexOf col) r)) = true) := by
  have hp := parseColumn_isOkB (T.rows.map (cellAt (T.cols.indexOf col)))
  rw [List.forall_mem_map] at hp
  by_cases hcol : col ∈ T.cols
  · unfold filterByDateRange
    rw [if_pos hcol]
    cases hfc : filterCore (T.cols.indexOf col) R T.rows with
    | error e =>
      have hpc : isOkB (parseColumn (T.rows.map (cellAt (T.cols.indexOf col)))) = false := by
        unfold filterCore at hfc
        cases hq : parseColumn (T.rows.map (cellAt (T.cols.indexOf col))) with
        | error e2 => rfl
        | ok ps => rw [hq] at hfc; exact absurd hfc (by simp)
      simp only [isOkB]
      constructor
      · intro hft
        exact absurd hft (by simp)
      · rintro (habs | hall)
        · exact absurd hcol habs
        · have hgood := hp.mpr hall
          rw [hpc] at hgood
          exact hgood
    | ok rows =>
      have hpc : isOkB (parseColumn (T.rows.map (cellAt (T.cols.indexOf col)))) = true := by
        unfold filterCore at hfc
        cases hq : parseColumn (T.rows.map (cellAt (T.cols.indexOf col))) with
        | error e2 => rw [hq] at hfc; exact absurd hfc (by simp)
        | ok ps => rfl
      exact iff_of_true rfl (Or.inr (hp.mp hpc))
  · unfold filterByDateRange
    rw [if_neg hcol]
    exact iff_of_true rfl (Or.inl hcol)

/-- C10: every retained record agrees with its source record on every
column position other than the timestamp column, whose cell now holds
exactly the normalized datetime that the source cell parses to. -/
theorem retained_record_frame {T : Table} {col : String} {R : DateRange} {T2 : Table}
    (hcol : col ∈ T.cols) (h : filterByDateRange T col R = .ok T2) :
    ∀ r2 ∈ T2.rows, ∃ r ∈ T.rows, ∃ t : Timestamp,
      to_datetime (cellAt (T.cols.indexOf col) r) = .ok (.ts t) ∧
      cellAt (T.cols.indexOf col) r2 = Value.vts t ∧
      ∀ j : Nat, j ≠ T.cols.indexOf col → cellAt j r2 = cellAt j r := by
  obtain ⟨hcols, hrows⟩ := filterByDateRange_ok_eq hcol h
  intro r2 hr2
  rw [hrows] at hr2
  obtain ⟨r, hrf, hr2eq⟩ := List.mem_map.mp hr2
  obtain ⟨hrm, hk⟩ := List.mem_filter.mp hrf
  obtain ⟨t, htd, hinr, hlen, hcell⟩ := keepRow_spec hk
  refine ⟨r, hrm, t, htd, ?_, ?_⟩
  · rw [← hr2eq]
    exact hcell
  · intro j hj
    rw [← hr2eq]
    unfold normRow
    exact cellAt_set_ne (Ne.symm hj) r _

/-! Concrete witnesses. -/

/-- A two-column example table: an opaque id column and a timestamp
column holding a datetime on day 10, one on day 20, and a missing value. -/
def exT : Table :=
  ⟨["id", "created_at"],
   [[Value.vbad "a", Value.vts ⟨10, 0⟩],
    [Value.vbad "b", Value.vts ⟨20, 3600⟩],
    [Value.vbad "c", Value.vnull]]⟩

/-- The range of days 5 to 15: keeps only the day-10 record of `exT`. -/
def exR : DateRange := ⟨5, 15⟩

/-- The filter output on `exT` with `exR`: just the day-10 record. -/
def exOut : Table :=
  ⟨["id", "created_at"], [[Value.vbad "a", Value.vts ⟨10, 0⟩]]⟩

/-- An inverted range (start 15, end 5). -/
def exRinv : DateRange := ⟨15, 5⟩

/-- The filter output on `exT` with the inverted range: no record. -/
def exOutInv : Table := ⟨["id", "created_at"], []⟩

/-- A single-column table without a `created_at` column. -/
def exT3 : Table := ⟨["id"], [[Value.vbad "z"]]⟩

/-- A table with the timestamp column but no records. -/
def emptyT : Table := ⟨["created_at"], []⟩

theorem filter_retains_iff_in_range_witness :
    ("created_at" ∈ exT.cols) ∧
      exOut.rows = (exT.rows.filter (keepRow (exT.cols.indexOf "created_at") exR)).map
        (normRow (exT.cols.indexOf "created_at")) :=
  ⟨by decide, @filter_retains_iff_in_range exT "created_at" exR exOut (by decide) rfl⟩

theorem filtered_rows_sublist_norm_witness :
    filterByDateRange exT "created_at" exR = .ok exOut ∧
      exOut.rows.Sublist (normTable exT "created_at").rows :=
  ⟨rfl, @filtered_rows_sublist_norm exT "created_at" exR exOut rfl⟩

theorem absent_column_identity_witness :
    ("created_at" ∉ exT3.cols) ∧ filterByDateRange exT3 "created_at" exR = .ok exT3 :=
  ⟨by decide, @absent_column_identity exT3 "created_at" exR (by decide)⟩

theorem filter_idempotent_witness :
    ("created_at" ∈ exT.cols) ∧ filterByDateRange exT "created_at" exR = .ok exOut ∧
      filterByDateRange exOut "created_at" exR = .ok exOut :=
  ⟨by decide, rfl, @filter_idempotent exT "created_at" exR exOut (by decide) rfl⟩

theorem inverted_range_empty_witness :
    ("created_at" ∈ exT.cols) ∧ exRinv.end_date < exRinv.start_date ∧
      filterByDateRange exT "created_at" exRinv = .ok exOutInv ∧
      (exOutInv.rows = [] ∧ aggregateByDay exOutInv "created_at" = []) :=
  ⟨by decide, by decide, rfl,
    @inverted_range_empty exT "created_at" exRinv exOutInv (by decide) (by decide) rfl⟩

theorem daily_counts_total_witness :
    ("created_at" ∈ exT.cols) ∧ filterByDateRange exT "created_at" exR = .ok exOut ∧
      ((aggregateByDay exOut "created_at").map Prod.snd).sum = exOut.rows.length :=
  ⟨by decide, rfl, @daily_counts_total exT "created_at" exR exOut (by decide) rfl⟩

theorem aggregate_empty_witness :
    emptyT.rows = [] ∧ aggregateByDay emptyT "created_at" = [] :=
  ⟨rfl, @aggregate_empty emptyT "created_at" rfl⟩

theorem retained_record_frame_witness :
    ("created_at" ∈ exT.cols) ∧ filterByDateRange exT "created_at" exR = .ok exOut ∧
      ∀ r2 ∈ exOut.rows, ∃ r ∈ exT.rows, ∃ t : Timestamp,
        to_datetime (cellAt (exT.cols.indexOf "created_at") r) = .ok (.ts t) ∧
        cellAt (exT.cols.indexOf "created_at") r2 = Value.vts t ∧
        ∀ j : Nat, j ≠ exT.cols.indexOf "created_at" → cellAt j r2 = cellAt j r :=
  ⟨by decide, rfl, @retained_record_frame exT "created_at" exR exOut (by decide) rfl⟩

end App
